import Mathlib

/-!
Verification of the orthorec orthogonal-slice reconstruction program
(`orthorec.py`) against its natural-language specification.

The embedding works over exact rational arithmetic: `float32`/`float64`
array elements become `ℚ`, arrays become (nested) lists, and the external
collaborators (backprojection kernels, FFT routines, the logarithm) are
parameters of the definitions that use them.  The concurrent chunk
pipeline is embedded as the sequential state machine it implements: the
source joins both submitted tasks inside every loop iteration, so one
fold over the step counter reproduces its observable behaviour exactly.
-/

namespace Orthorec

/-- A 2-D detector frame: a list of rows of rationals. -/
abbrev Frame := List (List ℚ)

/-- The clamping constant `1e-6` used by the correction chain. -/
def eps : ℚ := 1 / 1000000

/-! ### Array Binner (`binning`, orthorec.py lines 56-60) -/

/-- Average of two values, `0.5*(a+b)` as in the source. -/
def avg2 (a b : ℚ) : ℚ := (1/2) * (a + b)

/-- One pass of adjacent-pair averaging along a row:
`0.5*(data[..., ::2] + data[..., 1::2])` for an even-length row. -/
def pairAvg : List ℚ → List ℚ
  | a :: b :: r => avg2 a b :: pairAvg r
  | _ => []

/-- One pass of adjacent-pair averaging across rows:
`0.5*(data[..., ::2, :] + data[..., 1::2, :])`. -/
def rowPairs : List (List ℚ) → List (List ℚ)
  | r :: s :: rest => List.zipWith avg2 r s :: rowPairs rest
  | _ => []

/-- One iteration of the binning loop body: halve the row count, then
halve each row (source order: axis -2 first, then axis -1). -/
def binOnce (m : List (List ℚ)) : List (List ℚ) := (rowPairs m).map pairAvg

/-- `binning(data, bin_level)`: `bin_level` passes of adjacent-pair
averaging over the two trailing dimensions of a 2-D array. -/
def binning (m : List (List ℚ)) : ℕ → List (List ℚ)
  | 0 => m
  | l + 1 => binning (binOnce m) l

/-- Shape predicate: `m` is an `h × w` matrix. -/
def isMat (m : List (List ℚ)) (h w : ℕ) : Prop :=
  m.length = h ∧ ∀ r ∈ m, r.length = w

/-- Elementwise matrix addition (the array `+` used by linearity). -/
def matAdd (a b : List (List ℚ)) : List (List ℚ) :=
  List.zipWith (List.zipWith (· + ·)) a b

/-! ### Ramp filter weighting (`fbp_filter`, lines 24-33) -/

/-- Real-FFT frequency bins of one detector row of width `n`:
`cp.fft.rfftfreq(n) = [j/n for j = 0 .. n/2]`. -/
def rfftfreqQ (n : ℕ) : List ℚ := (List.range (n / 2 + 1)).map (fun j : ℕ => (j : ℚ) / n)

/-- The weighting vector the source builds: `t * (1 - t * 2)**3`
evaluated at every real-FFT frequency bin. -/
def wfilterList (n : ℕ) : List ℚ :=
  (rfftfreqQ n).map (fun t => t * (1 - t * 2) ^ 3)

/-- Weighting vector following the specification text
`w(f) = f*(1 - (2f)^2)^3`, written down only for comparison with
`wfilterList`. -/
def wfilterSpecList (n : ℕ) : List ℚ :=
  (rfftfreqQ n).map (fun t => t * (1 - (2 * t) ^ 2) ^ 3)

/-! ### Correction chain (lines 36-53), exact rational model.

For the non-finite-value analysis (claim on `minus_log`/`fix_inf_nan`)
a separate float-semantics model with explicit `nan`/`inf` values is
given in namespace `FloatSem` below. -/

/-- `darkflat_correction`: `(data[k] - dark) / cp.maximum(flat - dark, 1e-6)`
per pixel, per frame. -/
def darkflat_correction (data : List Frame) (dark flat : Frame) : List Frame :=
  data.map (fun f =>
    List.zipWith (fun rowN rowD => List.zipWith (fun a b => a / max b eps) rowN rowD)
      (List.zipWith (List.zipWith (· - ·)) f dark)
      (List.zipWith (List.zipWith (· - ·)) flat dark))

/-- `minus_log`: `-cp.log(cp.maximum(data, 1e-6))` elementwise, with the
logarithm abstracted as a parameter `lg` (its numerical method is an
external library call). -/
def minus_log (lg : ℚ → ℚ) (data : List Frame) : List Frame :=
  data.map (fun f => f.map (fun row => row.map (fun x => -(lg (max x eps)))))

/-- `fix_inf_nan` on the exact rational model: no non-finite values can
be represented, so the mask assignment changes nothing.  The faithful
float-semantics version is `FloatSem.fix_inf_nan`. -/
def fix_inf_nan (data : List Frame) : List Frame := data

/-- Frame height of a projection stack, `data.shape[1]`. -/
def stackNZ (data : List Frame) : ℕ := (data.headD []).length

/-- Frame width of a projection stack, `data.shape[2]`. -/
def stackWidth (data : List Frame) : ℕ := ((data.headD []).headD []).length

/-- `fbp_filter`: per frame, per detector row, forward real FFT, multiply
by the weighting vector, inverse real FFT.  The transform pair is the
external `cupyx.scipy.fft` collaborator, abstracted as `rf`/`irf`. -/
def fbp_filter (rf irf : List ℚ → List ℚ) (data : List Frame) : List Frame :=
  let w := wfilterList (stackWidth data)
  data.map (fun f => f.map (fun row => irf (List.zipWith (· * ·) w (rf row))))

/-! ### Backprojection Assembler (`backprojection`, lines 14-21) -/

/-- Contract of one external backprojection kernel
(`kernels.orthox/orthoy/orthoz`): filtered chunk, angles, trial centers,
slice index, producing a `[numCenters, rows, cols]` array. -/
abbrev KernelFn := List Frame → List ℚ → List ℚ → ℤ → List Frame

/-- Entry of a 3-D array at `[c, i, j]`, out-of-range reads giving `0`
(the composite volume is zero-initialised). -/
def entry3 (v : List Frame) (c i j : ℕ) : ℚ := ((v.getD c []).getD i []).getD j 0

/-- Region written by `obj[:, :nz, :n] = kernels.orthox(...)`. -/
def inX (nz n i j : ℕ) : Prop := i < nz ∧ j < n

/-- Region written by `obj[:, :nz, n:2*n] = kernels.orthoy(...)`. -/
def inY (nz n i j : ℕ) : Prop := i < nz ∧ n ≤ j ∧ j < 2 * n

/-- Region written by `obj[:, :n, 2*n:3*n] = kernels.orthoz(...)`. -/
def inZ (n i j : ℕ) : Prop := i < n ∧ 2 * n ≤ j ∧ j < 3 * n

/-- `backprojection`: allocate `cp.zeros([len(center), n, 3*n])` with
`[nz, n] = data.shape[1:]` and write the three kernel outputs into the
three thirds of the width axis exactly as the slice assignments do. -/
def backprojection (kx ky kz : KernelFn) (data : List Frame)
    (theta center : List ℚ) (idx idy idz : ℤ) : List Frame :=
  let nz := stackNZ data
  let n := stackWidth data
  let X := kx data theta center idx
  let Y := ky data theta center idy
  let Z := kz data theta center idz
  (List.range center.length).map (fun c =>
    (List.range n).map (fun i =>
      (List.range (3 * n)).map (fun j =>
        if j < n then (if i < nz then entry3 X c i j else 0)
        else if j < 2 * n then (if i < nz then entry3 Y c i (j - n) else 0)
        else entry3 Z c i (j - 2 * n))))

/-! ### recon (lines 70-76) -/

/-- The IEEE-754 double value of `cp.pi` used at line 75,
`884279719003555 * 2^-48`. -/
def piF64 : ℚ := 884279719003555 / 281474976710656

/-- The angle transformation `theta * cp.pi / 180.0` applied at the
`backprojection` call site in `recon`. -/
def deg2rad (t : ℚ) : ℚ := t * piF64 / 180

/-- `recon`: correction chain, ramp filter, then backprojection with the
angles converted by `theta*cp.pi/180.0`. -/
def recon (lg : ℚ → ℚ) (rf irf : List ℚ → List ℚ) (kx ky kz : KernelFn)
    (data : List Frame) (dark flat : Frame) (theta center : List ℚ)
    (idx idy idz : ℤ) : List Frame :=
  let d1 := darkflat_correction data dark flat
  let d2 := minus_log lg d1
  let d3 := fix_inf_nan d2
  let d4 := fbp_filter rf irf d3
  backprojection kx ky kz d4 (theta.map deg2rad) center idx idy idz

/-- Variant of `recon` following the specification sentence that the
kernels receive exactly the dataset angle subsequence with no unit
rescaling; written down only for comparison with `recon`. -/
def reconSpecAngles (lg : ℚ → ℚ) (rf irf : List ℚ → List ℚ) (kx ky kz : KernelFn)
    (data : List Frame) (dark flat : Frame) (theta center : List ℚ)
    (idx idy idz : ℤ) : List Frame :=
  let d1 := darkflat_correction data dark flat
  let d2 := minus_log lg d1
  let d3 := fix_inf_nan d2
  let d4 := fbp_filter rf irf d3
  backprojection kx ky kz d4 theta center idx idy idz

/-! ### Trial center sweep and parameter rescaling (lines 86-92) -/

/-- `np.arange(start, stop, step)` for a positive rational step:
`max(0, ceil((stop-start)/step))` equally spaced values from `start`. -/
def arangeQ (start stop step : ℚ) : List ℚ :=
  (List.range (Int.toNat ⌈(stop - start) / step⌉)).map (fun i : ℕ => start + step * (i : ℚ))

/-- Rescaling of an integer slice-index parameter,
`idx //= pow(2, bin_level)` (Python floor division). -/
def idxScale (i : ℤ) (l : ℕ) : ℤ := Int.fdiv i (2 ^ l)

/-- The Trial Center Set: the source first rescales the nominal center
(`center /= pow(2, bin_level)`) and then sweeps
`cp.arange(center-20, center+20, 0.5)`. -/
def trialCenters (center : ℚ) (l : ℕ) : List ℚ :=
  let c := center / 2 ^ l
  arangeQ (c - 20) (c + 20) (1/2)

/-- Trial Center Set following the claim text: the sweep spans plus or
minus 20 units around the caller-supplied nominal center before the
binning adjustment, and everything is rescaled by `2^bin_level`
afterwards; written down only for comparison with `trialCenters`. -/
def trialCentersSpec (center : ℚ) (l : ℕ) : List ℚ :=
  (arangeQ (center - 20) (center + 20) (1/2)).map (fun x => x / 2 ^ l)

/-! ### Chunk Pipeline Scheduler (`orthorec`, lines 123-145)

The source submits at most one transfer task and one compute task per
loop iteration to a two-worker pool and joins both with `.result()`
before the next iteration, so its observable behaviour is the sequential
fold below.  The per-chunk computation (`recon` in the source) is the
parameter `proc`; the transfer/compute logs record which task was issued
at which step, which is what the scheduler claims are about. -/

/-- A materialized chunk: binned projection frames and the matching
angle slice, as produced by `gpu_copy`. -/
abbrev Chunk := List Frame × List ℚ

/-- `gpu_copy(data, theta, start, end, bin_level)`: slice `[start:end]`
of the stack and the angles, binning the projection frames. -/
def gpu_copy (data : List Frame) (theta : List ℚ) (start stop bl : ℕ) : Chunk :=
  (((data.drop start).take (stop - start)).map (fun f => binning f bl),
   (theta.drop start).take (stop - start))

/-- `int(cp.ceil(a / b))` for natural `a`, positive natural `b`. -/
def ceilDiv (a b : ℕ) : ℕ := (a + b - 1) / b

/-- State of the pipeline loop: the two parity-indexed chunk buffers
(`data_gpu`/`theta_gpu`), the accumulator `obj_gpu`, and logs of the
issued transfer steps and of the (step, consumed chunk) compute pairs. -/
structure SchedState (V : Type) where
  buf0 : Option Chunk
  buf1 : Option Chunk
  acc : V
  transferLog : List ℕ
  computeLog : List (ℕ × Option Chunk)

/-- One iteration of `for k in range(0, nchunk+1)`: submit the transfer
of chunk `k` when `k < nchunk`, submit the compute on buffer `(k-1)%2`
when `k > 1` (capturing the buffer contents at submission time), then
join: store the transfer result in buffer `k%2` and add the compute
result to the accumulator. -/
def schedStep {V : Type} [AddCommMonoid V] (proc : Chunk → V)
    (data : List Frame) (theta : List ℚ) (bl pchunk nchunk : ℕ)
    (s : SchedState V) (k : ℕ) : SchedState V :=
  let t2 : Option Chunk :=
    if k < nchunk then
      some (gpu_copy data theta (k * pchunk) (min ((k + 1) * pchunk) data.length) bl)
    else none
  let src : Option Chunk :=
    if 1 < k then (if (k - 1) % 2 = 0 then s.buf0 else s.buf1) else none
  let s1 : SchedState V :=
    match t2 with
    | some c =>
      if k % 2 = 0 then
        { s with buf0 := some c, transferLog := s.transferLog ++ [k] }
      else
        { s with buf1 := some c, transferLog := s.transferLog ++ [k] }
    | none => s
  if 1 < k then
    { s1 with
      acc := s1.acc + (match src with | some c => proc c | none => 0),
      computeLog := s1.computeLog ++ [(k, src)] }
  else s1

/-- The whole pipeline loop, starting from empty buffers
(`data_gpu = [None]*2`), a zero accumulator and empty logs, with
`nchunk = int(cp.ceil(data.shape[0]/pchunk))`. -/
def pipelineAcc {V : Type} [AddCommMonoid V] (proc : Chunk → V)
    (data : List Frame) (theta : List ℚ) (bl pchunk : ℕ) : SchedState V :=
  let nchunk := ceilDiv data.length pchunk
  (List.range (nchunk + 1)).foldl (schedStep proc data theta bl pchunk nchunk)
    ⟨none, none, 0, [], []⟩

/-! ### Float-semantics model of the sanitization chain (lines 43-53)

`float32` values with explicit non-finite elements, for the claim that
`minus_log` followed by `fix_inf_nan` never yields `nan` or an
infinity. -/

namespace FloatSem

/-- A floating-point value: a finite rational, `nan`, or a signed
infinity. -/
inductive FVal where
  | fin (q : ℚ)
  | nan
  | pinf
  | ninf
deriving DecidableEq

/-- Whether a value is finite (neither `nan` nor an infinity). -/
def FVal.isFin : FVal → Bool
  | .fin _ => true
  | _ => false

/-- `cp.maximum(x, c)` against a finite constant: `nan` propagates,
`+inf` dominates, `-inf` is replaced by the constant. -/
def fmax (x : FVal) (c : ℚ) : FVal :=
  match x with
  | .fin q => .fin (max q c)
  | .nan => .nan
  | .pinf => .pinf
  | .ninf => .fin c

/-- `cp.log` with the finite-positive branch abstracted as `lg` (the
logarithm of a positive finite float is always finite): `log 0 = -inf`,
`log` of a negative value is `nan`. -/
def flog (lg : ℚ → ℚ) (x : FVal) : FVal :=
  match x with
  | .fin q => if 0 < q then .fin (lg q) else if q = 0 then .ninf else .nan
  | .nan => .nan
  | .pinf => .pinf
  | .ninf => .nan

/-- Floating-point negation. -/
def fneg : FVal → FVal
  | .fin q => .fin (-q)
  | .nan => .nan
  | .pinf => .ninf
  | .ninf => .pinf

/-- `minus_log`: `-cp.log(cp.maximum(data, 1e-6))` elementwise. -/
def minus_log (lg : ℚ → ℚ) (data : List FVal) : List FVal :=
  data.map (fun x => fneg (flog lg (fmax x eps)))

/-- `fix_inf_nan`: `data[cp.isnan(data)] = 0; data[cp.isinf(data)] = 0`. -/
def fix_inf_nan (data : List FVal) : List FVal :=
  data.map (fun x => match x with | .fin q => .fin q | _ => .fin 0)

end FloatSem

/-! ### Concrete fixtures used by the claim theorems -/

/-- A kernel stand-in returning an empty array. -/
def kZero : KernelFn := fun _ _ _ _ => []

/-- A kernel stand-in that reports the first angle it receives, used to
observe the angle argument `recon` hands to the kernels. -/
def kRecAngle : KernelFn := fun _ th _ _ => [[[th.headD 0]]]

/-- One-frame stack with a single 1 x 1 frame. -/
def dataC6 : List Frame := [[[1]]]

/-- One-frame stack whose frame is 2 x 4 (detector height 2, width 4). -/
def dataC4 : List Frame := [[[0, 0, 0, 0], [0, 0, 0, 0]]]

/-- A 128-projection stack of 1 x 1 frames with distinct values. -/
def data128 : List Frame := (List.range 128).map (fun i : ℕ => [[(i : ℚ)]])

/-- Angles `0, 1, ..., 127` matching `data128`. -/
def theta128 : List ℚ := (List.range 128).map (fun i : ℕ => (i : ℚ))

/-- A 192-projection stack of 1 x 1 frames with distinct values. -/
def data192 : List Frame := (List.range 192).map (fun i : ℕ => [[(i : ℚ)]])

/-- Angles matching `data192`. -/
def theta192 : List ℚ := (List.range 192).map (fun i : ℕ => (i : ℚ))

/-- A 7-projection stack of 1 x 1 frames with distinct values. -/
def data7 : List Frame := (List.range 7).map (fun i : ℕ => [[(i : ℚ)]])

/-- Angles matching `data7`. -/
def theta7 : List ℚ := (List.range 7).map (fun i : ℕ => (i : ℚ))

/-- A stand-in per-chunk contribution: the number of projection frames
in the chunk. -/
def procCount : Chunk → ℕ := fun c => c.1.length

/-- A concrete 2 x 2 matrix for binning checks. -/
def matA : List (List ℚ) := [[1, 2], [3, 4]]

/-- Another concrete 2 x 2 matrix for binning checks. -/
def matB : List (List ℚ) := [[0, 1], [1, 0]]

end Orthorec

namespace Orthorec

/-! ## Helper lemmas -/

/-- Reading index `c` of a mapped range list gives the function value. -/
theorem getD_range_map {α : Type} (m c : ℕ) (f : ℕ → α) (d : α) (h : c < m) :
    ((List.range m).map f).getD c d = f c := by
  simp [List.getD_eq_getElem?_getD, List.getElem?_map, List.getElem?_range h]

/-- One pair-averaging pass halves a row length (floor division). -/
theorem pairAvg_length (l : List ℚ) : (pairAvg l).length = l.length / 2 := by
  induction l using pairAvg.induct with
  | case1 a b r ih => simp [pairAvg, ih]; omega
  | case2 l h => cases l with
    | nil => simp [pairAvg]
    | cons a t => cases t with
      | nil => simp [pairAvg]
      | cons b r => exact absurd rfl (h a b r)

/-- One row-averaging pass halves the row count (floor division). -/
theorem rowPairs_length (m : List (List ℚ)) : (rowPairs m).length = m.length / 2 := by
  induction m using rowPairs.induct with
  | case1 r s rest ih => simp [rowPairs, ih]; omega
  | case2 m h => cases m with
    | nil => simp [rowPairs]
    | cons a t => cases t with
      | nil => simp [rowPairs]
      | cons b r => exact absurd rfl (h a b r)

/-- Row averaging preserves the width of the rows. -/
theorem rowPairs_rows_length (m : List (List ℚ)) (w : ℕ)
    (hw : ∀ r ∈ m, r.length = w) : ∀ r ∈ rowPairs m, r.length = w := by
  induction m using rowPairs.induct with
  | case1 r s rest ih =>
    intro x hx
    rw [rowPairs] at hx
    rcases List.mem_cons.mp hx with hx | hx
    · subst hx
      rw [List.length_zipWith, hw r (by simp), hw s (by simp)]
      omega
    · exact ih (fun t ht => hw t (by simp [ht])) x hx
  | case2 m h => cases m with
    | nil => intro x hx; simp [rowPairs] at hx
    | cons a t => cases t with
      | nil => intro x hx; simp [rowPairs] at hx
      | cons b r => exact absurd rfl (h a b r)

/-- One binning pass halves both dimensions. -/
theorem binOnce_isMat (m : List (List ℚ)) (hgt w : ℕ) (hm : isMat m hgt w) :
    isMat (binOnce m) (hgt / 2) (w / 2) := by
  obtain ⟨hlen, hrows⟩ := hm
  constructor
  · simp [binOnce, rowPairs_length, hlen]
  · intro r hr
    simp only [binOnce, List.mem_map] at hr
    obtain ⟨s, hs, rfl⟩ := hr
    rw [pairAvg_length, rowPairs_rows_length m w hrows s hs]

/-- Binning at level `l` divides both dimensions by `2 ^ l`. -/
theorem binning_isMat (l : ℕ) (m : List (List ℚ)) (hgt w : ℕ) (hm : isMat m hgt w) :
    isMat (binning m l) (hgt / 2 ^ l) (w / 2 ^ l) := by
  induction l generalizing m hgt w with
  | zero => simpa [binning] using hm
  | succ l ih =>
    have h1 := binOnce_isMat m hgt w hm
    have h2 := ih (binOnce m) (hgt / 2) (w / 2) h1
    have e : ∀ x : ℕ, x / 2 / 2 ^ l = x / 2 ^ (l + 1) := fun x => by
      rw [Nat.div_div_eq_div_mul, mul_comm, pow_succ]
    rw [binning, ← e hgt, ← e w]
    exact h2

/-- Pair averaging commutes with elementwise addition of equally long
rows. -/
theorem pairAvg_add : ∀ (u v : List ℚ), u.length = v.length →
    pairAvg (List.zipWith (· + ·) u v) = List.zipWith (· + ·) (pairAvg u) (pairAvg v) := by
  intro u
  induction u using pairAvg.induct with
  | case1 a b r ih =>
    intro v hv
    cases v with
    | nil => simp at hv
    | cons c t => cases t with
      | nil => simp at hv
      | cons d s =>
        simp only [List.zipWith_cons_cons, pairAvg]
        rw [ih s (by simpa using hv)]
        congr 1
        simp [avg2]; ring
  | case2 u h =>
    cases u with
    | nil => intro v _; simp [pairAvg]
    | cons a t => cases t with
      | nil =>
        intro v hv
        cases v with
        | nil => simp at hv
        | cons c t2 => cases t2 with
          | nil => simp [pairAvg]
          | cons d s => simp at hv
      | cons b r => exact absurd rfl (h a b r)

/-- Averaging two rows commutes with elementwise addition. -/
theorem zipWith_avg2_add (r1 r2 s1 s2 : List ℚ) (h1 : s1.length = r1.length)
    (h2 : r2.length = r1.length) (h3 : s2.length = r1.length) :
    List.zipWith avg2 (List.zipWith (· + ·) r1 s1) (List.zipWith (· + ·) r2 s2)
      = List.zipWith (· + ·) (List.zipWith avg2 r1 r2) (List.zipWith avg2 s1 s2) := by
  apply List.ext_getElem
  · simp only [List.length_zipWith]; omega
  · intro i hi1 hi2
    simp only [List.getElem_zipWith, avg2]
    ring

/-- Row averaging commutes with elementwise matrix addition. -/
theorem rowPairs_matAdd : ∀ (a b : List (List ℚ)) (w : ℕ), a.length = b.length →
    (∀ r ∈ a, r.length = w) → (∀ r ∈ b, r.length = w) →
    rowPairs (matAdd a b) = matAdd (rowPairs a) (rowPairs b) := by
  intro a
  induction a using rowPairs.induct with
  | case1 r s rest ih =>
    intro b w hlen hra hrb
    cases b with
    | nil => simp at hlen
    | cons r2 t => cases t with
      | nil => simp at hlen
      | cons s2 rest2 =>
        simp only [matAdd, List.zipWith_cons_cons, rowPairs]
        have hr : r.length = w := hra r (by simp)
        have hs : s.length = w := hra s (by simp)
        have hr2 : r2.length = w := hrb r2 (by simp)
        have hs2 : s2.length = w := hrb s2 (by simp)
        rw [zipWith_avg2_add r s r2 s2 (by omega) (by omega) (by omega)]
        have ihc := ih rest2 w (by simpa using hlen)
          (fun t ht => hra t (by simp [ht])) (fun t ht => hrb t (by simp [ht]))
        simp only [matAdd] at ihc
        rw [ihc]
  | case2 a h =>
    cases a with
    | nil => intro b w hlen _ _; simp [matAdd, rowPairs]
    | cons r t => cases t with
      | nil =>
        intro b w hlen _ _
        cases b with
        | nil => simp at hlen
        | cons r2 t2 => cases t2 with
          | nil => simp [matAdd, rowPairs]
          | cons s2 rest2 => simp at hlen
      | cons s rest => exact absurd rfl (h r s rest)

/-- Column averaging of every row commutes with matrix addition. -/
theorem matAdd_map_pairAvg : ∀ (p q : List (List ℚ)) (w : ℕ),
    (∀ r ∈ p, r.length = w) → (∀ r ∈ q, r.length = w) →
    (matAdd p q).map pairAvg = matAdd (p.map pairAvg) (q.map pairAvg) := by
  intro p
  induction p with
  | nil => intro q w _ _; simp [matAdd]
  | cons r p ih =>
    intro q w hp hq
    cases q with
    | nil => simp [matAdd]
    | cons s q2 =>
      simp only [matAdd, List.zipWith_cons_cons, List.map_cons]
      rw [pairAvg_add r s (by rw [hp r (by simp), hq s (by simp)])]
      have ihc := ih q2 w (fun t ht => hp t (by simp [ht])) (fun t ht => hq t (by simp [ht]))
      simp only [matAdd] at ihc
      rw [ihc]

/-- Matrix addition preserves the row widths. -/
theorem matAdd_rows_length : ∀ (a b : List (List ℚ)) (w : ℕ),
    (∀ r ∈ a, r.length = w) → (∀ r ∈ b, r.length = w) →
    ∀ r ∈ matAdd a b, r.length = w := by
  intro a
  induction a with
  | nil => intro b w _ _ r hr; simp [matAdd] at hr
  | cons x p ih =>
    intro b w ha hb r hr
    cases b with
    | nil => simp [matAdd] at hr
    | cons y q =>
      simp only [matAdd, List.zipWith_cons_cons] at hr
      rcases List.mem_cons.mp hr with hr | hr
      · subst hr
        rw [List.length_zipWith, ha x (by simp), hb y (by simp)]
        omega
      · exact ih q w (fun t ht => ha t (by simp [ht])) (fun t ht => hb t (by simp [ht])) r hr

/-- Matrix addition of two matrices of the same shape keeps that shape. -/
theorem matAdd_isMat (a b : List (List ℚ)) (hgt w : ℕ) (ha : isMat a hgt w)
    (hb : isMat b hgt w) : isMat (matAdd a b) hgt w := by
  refine ⟨?_, matAdd_rows_length a b w ha.2 hb.2⟩
  rw [matAdd, List.length_zipWith, ha.1, hb.1]
  omega

/-- One binning pass commutes with matrix addition. -/
theorem binOnce_matAdd (a b : List (List ℚ)) (hgt w : ℕ) (ha : isMat a hgt w)
    (hb : isMat b hgt w) : binOnce (matAdd a b) = matAdd (binOnce a) (binOnce b) := by
  unfold binOnce
  rw [rowPairs_matAdd a b w (ha.1.trans hb.1.symm) ha.2 hb.2]
  exact matAdd_map_pairAvg _ _ w (rowPairs_rows_length a w ha.2) (rowPairs_rows_length b w hb.2)

/-- Binning at any level is additive on same-shape matrices. -/
theorem binning_matAdd : ∀ (l : ℕ) (a b : List (List ℚ)) (hgt w : ℕ),
    isMat a hgt w → isMat b hgt w →
    binning (matAdd a b) l = matAdd (binning a l) (binning b l) := by
  intro l
  induction l with
  | zero => intro a b hgt w _ _; simp [binning]
  | succ l ih =>
    intro a b hgt w ha hb
    simp only [binning]
    rw [binOnce_matAdd a b hgt w ha hb]
    exact ih (binOnce a) (binOnce b) (hgt / 2) (w / 2)
      (binOnce_isMat a hgt w ha) (binOnce_isMat b hgt w hb)

/-- Evaluation rule for `arangeQ` when the element count is exact. -/
theorem arangeQ_eq (start stop step : ℚ) (n : ℕ) (h : (stop - start) / step = n) :
    arangeQ start stop step = (List.range n).map (fun i : ℕ => start + step * (i : ℚ)) := by
  unfold arangeQ
  rw [h, Int.ceil_natCast, Int.toNat_natCast]

/-- Closed form of the trial-center sweep: 80 values starting at the
rescaled center minus 20, in steps of one half. -/
theorem trialCenters_eq (c : ℚ) (l : ℕ) :
    trialCenters c l = (List.range 80).map (fun m : ℕ => c / 2 ^ l - 20 + (m : ℚ) / 2) := by
  unfold trialCenters
  rw [arangeQ_eq _ _ _ 80 (by push_cast; ring)]
  apply List.map_congr_left
  intro i _
  ring

/-- Entry dispatch of the assembled composite volume. -/
theorem backprojection_entry (kx ky kz : KernelFn) (data : List Frame)
    (theta center : List ℚ) (idx idy idz : ℤ) (c i j : ℕ)
    (hc : c < center.length) (hi : i < stackWidth data) (hj : j < 3 * stackWidth data) :
    entry3 (backprojection kx ky kz data theta center idx idy idz) c i j
      = (if j < stackWidth data then
           (if i < stackNZ data then entry3 (kx data theta center idx) c i j else 0)
         else if j < 2 * stackWidth data then
           (if i < stackNZ data then entry3 (ky data theta center idy) c i (j - stackWidth data) else 0)
         else entry3 (kz data theta center idz) c i (j - 2 * stackWidth data)) := by
  conv_lhs => rw [entry3, backprojection]
  rw [getD_range_map _ _ _ _ hc, getD_range_map _ _ _ _ hi, getD_range_map _ _ _ _ hj]

end Orthorec

namespace Orthorec

/-! ## Claim theorems -/

set_option maxRecDepth 20000 in
/-- Claim C1 (code bug evidence).  For a 128-projection dataset with
chunk size 64 (2 chunks) the scheduler issues 2 transfer tasks but only
ONE compute task (at step 2, consuming chunk 1), and the final
accumulator equals `contribution(chunk1) / 128`: chunk 0 is transferred
but its contribution is never added, contradicting the claimed
`(contribution(chunk0) + contribution(chunk1)) / 128`. -/
theorem c1_scheduler_drops_chunk0 :
    (pipelineAcc procCount data128 theta128 0 64).transferLog = [0, 1]
    ∧ (pipelineAcc procCount data128 theta128 0 64).computeLog.map Prod.fst = [2]
    ∧ (pipelineAcc procCount data128 theta128 0 64).computeLog.map Prod.snd
        = [some (gpu_copy data128 theta128 64 128 0)]
    ∧ ((pipelineAcc procCount data128 theta128 0 64).acc : ℚ) / 128
        = (procCount (gpu_copy data128 theta128 64 128 0) : ℚ) / 128
    ∧ ((pipelineAcc procCount data128 theta128 0 64).acc : ℚ) / 128
        ≠ ((procCount (gpu_copy data128 theta128 0 64 0) : ℚ)
            + (procCount (gpu_copy data128 theta128 64 128 0) : ℚ)) / 128 := by
  have hacc : (pipelineAcc procCount data128 theta128 0 64).acc = 64 := by decide
  have h0 : procCount (gpu_copy data128 theta128 0 64 0) = 64 := by decide
  have h1 : procCount (gpu_copy data128 theta128 64 128 0) = 64 := by decide
  refine ⟨by decide, by decide, by decide, ?_, ?_⟩
  · rw [hacc, h1]
  · rw [hacc, h0, h1]
    norm_num

set_option maxRecDepth 20000 in
/-- Claim C2 (code bug evidence).  For a 192-projection dataset with
chunk size 64 (3 chunks): the compute task issued at step `k` consumes
the chunk transferred at step `k-1`, one step earlier, not two, and
chunk 0 is never consumed at all: the compute log is
`[(2, chunk 1), (3, chunk 2)]` while the transfers happen at steps
`0, 1, 2`. -/
theorem c2_compute_consumes_previous_chunk :
    (pipelineAcc procCount data192 theta192 0 64).transferLog = [0, 1, 2]
    ∧ (pipelineAcc procCount data192 theta192 0 64).computeLog.map Prod.fst = [2, 3]
    ∧ (pipelineAcc procCount data192 theta192 0 64).computeLog.map Prod.snd
        = [some (gpu_copy data192 theta192 64 128 0),
           some (gpu_copy data192 theta192 128 192 0)]
    ∧ ∀ e ∈ (pipelineAcc procCount data192 theta192 0 64).computeLog.map Prod.snd,
        e ≠ some (gpu_copy data192 theta192 0 64 0) := by
  refine ⟨by decide, by decide, by decide, by decide⟩

set_option maxRecDepth 20000 in
/-- Claim C3 (code bug evidence).  For a fixed 7-projection stack the
final averaged accumulator DEPENDS on the chunk size: chunk size 1
yields `6/7` of the stand-in contribution total while chunk sizes 7 and
64 yield `0`, because the first chunk of every partition is dropped. -/
theorem c3_result_depends_on_chunk_size :
    ((pipelineAcc procCount data7 theta7 0 1).acc : ℚ) / 7 = 6 / 7
    ∧ ((pipelineAcc procCount data7 theta7 0 7).acc : ℚ) / 7 = 0
    ∧ ((pipelineAcc procCount data7 theta7 0 64).acc : ℚ) / 7 = 0
    ∧ ((pipelineAcc procCount data7 theta7 0 1).acc : ℚ) / 7
        ≠ ((pipelineAcc procCount data7 theta7 0 7).acc : ℚ) / 7 := by
  have e1 : (pipelineAcc procCount data7 theta7 0 1).acc = 6 := by decide
  have e7 : (pipelineAcc procCount data7 theta7 0 7).acc = 0 := by decide
  have e64 : (pipelineAcc procCount data7 theta7 0 64).acc = 0 := by decide
  refine ⟨?_, ?_, ?_, ?_⟩
  · rw [e1]; norm_num
  · rw [e7]; norm_num
  · rw [e64]; norm_num
  · rw [e1, e7]; norm_num

/-- Claim C4 counterexample.  On a stack whose frames are 2 x 4
(detector height 2, width 4) the composite volume has 4 rows — the
detector WIDTH — not the detector height 2 claimed by the
specification. -/
theorem c4_composite_height_cex :
    ((backprojection kZero kZero kZero dataC4 [] [0] 0 0 0).getD 0 []).length
      ≠ stackNZ dataC4 := by
  decide

/-- Claim C4 as amended.  The composite has shape
`[numCenters, n, 3*n]` with `n` the (binned) detector width, so the
composite width is exactly three times `n`; the three written regions
are pairwise disjoint; within bounds the X plane occupies the first
`nz` rows of the first width third, the Y plane the first `nz` rows of
the second third, the Z plane all rows of the last third, and cells of
the first two thirds below row `nz` stay zero. -/
theorem c4_assembler_regions (kx ky kz : KernelFn) (data : List Frame)
    (theta center : List ℚ) (idx idy idz : ℤ) :
    ((backprojection kx ky kz data theta center idx idy idz).length = center.length
      ∧ (∀ p ∈ backprojection kx ky kz data theta center idx idy idz,
          p.length = stackWidth data ∧ ∀ r ∈ p, r.length = 3 * stackWidth data))
    ∧ (∀ i j : ℕ,
        ¬(inX (stackNZ data) (stackWidth data) i j ∧ inY (stackNZ data) (stackWidth data) i j)
        ∧ ¬(inY (stackNZ data) (stackWidth data) i j ∧ inZ (stackWidth data) i j)
        ∧ ¬(inX (stackNZ data) (stackWidth data) i j ∧ inZ (stackWidth data) i j))
    ∧ (∀ c i j : ℕ, c < center.length → i < stackWidth data → j < 3 * stackWidth data →
        (inX (stackNZ data) (stackWidth data) i j →
          entry3 (backprojection kx ky kz data theta center idx idy idz) c i j
            = entry3 (kx data theta center idx) c i j)
        ∧ (inY (stackNZ data) (stackWidth data) i j →
          entry3 (backprojection kx ky kz data theta center idx idy idz) c i j
            = entry3 (ky data theta center idy) c i (j - stackWidth data))
        ∧ (inZ (stackWidth data) i j →
          entry3 (backprojection kx ky kz data theta center idx idy idz) c i j
            = entry3 (kz data theta center idz) c i (j - 2 * stackWidth data))
        ∧ (stackNZ data ≤ i → j < 2 * stackWidth data →
          entry3 (backprojection kx ky kz data theta center idx idy idz) c i j = 0)) := by
  refine ⟨⟨?_, ?_⟩, ?_, ?_⟩
  · simp [backprojection]
  · intro p hp
    simp only [backprojection, List.mem_map, List.mem_range] at hp
    obtain ⟨c, _, rfl⟩ := hp
    constructor
    · simp
    · intro r hr
      simp only [List.mem_map, List.mem_range] at hr
      obtain ⟨i, _, rfl⟩ := hr
      simp
  · intro i j
    refine ⟨?_, ?_, ?_⟩ <;> simp only [inX, inY, inZ] <;> omega
  · intro c i j hc hi hj
    rw [backprojection_entry kx ky kz data theta center idx idy idz c i j hc hi hj]
    refine ⟨?_, ?_, ?_, ?_⟩
    · rintro ⟨h1, h2⟩
      rw [if_pos h2, if_pos h1]
    · rintro ⟨h1, h2, h3⟩
      rw [if_neg (by omega), if_pos h3, if_pos h1]
    · rintro ⟨h1, h2, h3⟩
      rw [if_neg (by omega), if_neg (by omega)]
    · intro h1 h2
      by_cases hjn : j < stackWidth data
      · rw [if_pos hjn, if_neg (by omega)]
      · rw [if_neg hjn, if_pos (by omega), if_neg (by omega)]

/-- Witness for C4: a concrete instance of the region facts with all
hypotheses discharged on the 2 x 4 example stack. -/
theorem c4_assembler_regions_w :
    (0 < ([(0:ℚ)]).length ∧ 1 < stackWidth dataC4 ∧ 2 < 3 * stackWidth dataC4
      ∧ inX (stackNZ dataC4) (stackWidth dataC4) 1 2)
    ∧ entry3 (backprojection kZero kZero kZero dataC4 [] [(0:ℚ)] 0 0 0) 0 1 2
        = entry3 (kZero dataC4 [] [(0:ℚ)] 0) 0 1 2 :=
  ⟨⟨by decide, by decide, by decide, ⟨by decide, by decide⟩⟩,
   ((c4_assembler_regions kZero kZero kZero dataC4 [] [(0:ℚ)] 0 0 0).2.2 0 1 2
      (by decide) (by decide) (by decide)).1 ⟨by decide, by decide⟩⟩

/-- Claim C5 counterexample.  At detector width 4 the weighting vector
built by the source differs from the specification formula
`f*(1-(2f)^2)^3`: at the middle bin the source gives `1/32`, the
specification formula `27/256`. -/
theorem c5_weight_formula_cex : wfilterList 4 ≠ wfilterSpecList 4 := by
  intro h
  have h1 := congrArg (fun t => t.getD 1 0) h
  simp only [wfilterList, wfilterSpecList, rfftfreqQ, List.getD_eq_getElem?_getD,
    List.getElem?_map, List.getElem?_range (by norm_num : 1 < 4 / 2 + 1),
    Option.map_some', Option.getD_some] at h1
  norm_num at h1

/-- Claim C5 as amended.  The ramp-filter weighting vector equals
`w(f) = f*(1 - 2f)^3` at every real-FFT frequency bin `f = j/n`, and it
evaluates to 0 at frequency 0 and at the Nyquist bin `f = 1/2`. -/
theorem c5_parzen_weights (n j : ℕ) (hn : 0 < n) (he : 2 ∣ n) (hj : j ≤ n / 2) :
    (wfilterList n).getD j 1 = ((j : ℚ) / n) * (1 - 2 * ((j : ℚ) / n)) ^ 3
    ∧ (wfilterList n).getD 0 1 = 0
    ∧ (wfilterList n).getD (n / 2) 1 = 0 := by
  have key : ∀ m : ℕ, m ≤ n / 2 →
      (wfilterList n).getD m 1 = ((m : ℚ) / n) * (1 - 2 * ((m : ℚ) / n)) ^ 3 := by
    intro m hm
    rw [wfilterList, rfftfreqQ, List.getD_eq_getElem?_getD, List.getElem?_map,
      List.getElem?_map, List.getElem?_range (by omega : m < n / 2 + 1)]
    simp only [Option.map_some', Option.getD_some]
    ring
  refine ⟨key j hj, ?_, ?_⟩
  · rw [key 0 (by omega)]
    norm_num
  · rw [key (n / 2) le_rfl]
    obtain ⟨m, rfl⟩ := he
    have hm : 0 < m := by omega
    have hm2 : 2 * m / 2 = m := by omega
    rw [hm2]
    have hhalf : (m : ℚ) / ((2 * m : ℕ) : ℚ) = 1 / 2 := by
      push_cast
      rw [div_eq_iff (by positivity)]
      ring
    rw [hhalf]
    norm_num

/-- Witness for C5 at width 4, bin 1. -/
theorem c5_parzen_weights_w :
    (0 < 4 ∧ 2 ∣ 4 ∧ 1 ≤ 4 / 2)
    ∧ ((wfilterList 4).getD 1 1 = (((1:ℕ) : ℚ) / ((4:ℕ) : ℚ))
          * (1 - 2 * (((1:ℕ) : ℚ) / ((4:ℕ) : ℚ))) ^ 3
       ∧ (wfilterList 4).getD 0 1 = 0
       ∧ (wfilterList 4).getD (4 / 2) 1 = 0) :=
  ⟨⟨by norm_num, by norm_num, by norm_num⟩,
   c5_parzen_weights 4 1 (by norm_num) (by norm_num) (by norm_num)⟩

end Orthorec

namespace Orthorec

/-- Claim C6 counterexample.  With an angle-reporting kernel stand-in,
running `recon` on a one-frame stack with dataset angle 180 is not the
same as the specification variant that passes angles through unchanged:
the kernel receives `180 * pi / 180`, not `180`. -/
theorem c6_angle_rescale_cex :
    recon (fun q => q) id id kZero kZero kRecAngle dataC6 [[0]] [[1]] [180] [0] 0 0 0
      ≠ reconSpecAngles (fun q => q) id id kZero kZero kRecAngle dataC6
          [[0]] [[1]] [180] [0] 0 0 0 := by
  intro h
  have h2 : entry3 (recon (fun q => q) id id kZero kZero kRecAngle dataC6
        [[0]] [[1]] [180] [0] 0 0 0) 0 0 2
      = entry3 (reconSpecAngles (fun q => q) id id kZero kZero kRecAngle dataC6
        [[0]] [[1]] [180] [0] 0 0 0) 0 0 2 := by rw [h]
  have e1 : entry3 (recon (fun q => q) id id kZero kZero kRecAngle dataC6
      [[0]] [[1]] [180] [0] 0 0 0) 0 0 2 = 180 * piF64 / 180 := rfl
  have e2 : entry3 (reconSpecAngles (fun q => q) id id kZero kZero kRecAngle dataC6
      [[0]] [[1]] [180] [0] 0 0 0) 0 0 2 = 180 := rfl
  rw [e1, e2] at h2
  norm_num [piF64] at h2

/-- Claim C6 as amended.  The angle handed to the kernels for a dataset
entry `t` is `t * cp.pi / 180` — a degrees-to-radians conversion — and
for every nonzero `t` this differs from `t` itself: a unit rescaling IS
applied between the dataset entry and the kernel call. -/
theorem c6_angle_conversion (t : ℚ) (ht : t ≠ 0) :
    entry3 (recon (fun q => q) id id kZero kZero kRecAngle dataC6
        [[0]] [[1]] [t] [0] 0 0 0) 0 0 2 = t * piF64 / 180
    ∧ t * piF64 / 180 ≠ t := by
  refine ⟨rfl, ?_⟩
  intro hEq
  apply ht
  have h1 : t * (piF64 - 180) = 180 * (t * piF64 / 180 - t) := by ring
  rw [hEq, sub_self, mul_zero] at h1
  rcases mul_eq_zero.mp h1 with h2 | h2
  · exact h2
  · exfalso
    rw [sub_eq_zero] at h2
    norm_num [piF64] at h2

/-- Witness for C6 at dataset angle 180. -/
theorem c6_angle_conversion_w :
    (180 : ℚ) ≠ 0
    ∧ (entry3 (recon (fun q => q) id id kZero kZero kRecAngle dataC6
          [[0]] [[1]] [(180 : ℚ)] [0] 0 0 0) 0 0 2 = 180 * piF64 / 180
       ∧ (180 : ℚ) * piF64 / 180 ≠ 180) :=
  ⟨by norm_num, c6_angle_conversion 180 (by norm_num)⟩

/-- Claim C7 counterexample.  At nominal center 100 and binning level 1
the source sweep (rescale first, then span 20 either side: first
candidate 30) differs from the claimed order (span 20 either side of
the nominal center, then rescale: first candidate 40). -/
theorem c7_sweep_order_cex : trialCenters 100 1 ≠ trialCentersSpec 100 1 := by
  intro h
  have h0 : (trialCenters 100 1).getD 0 0 = (trialCentersSpec 100 1).getD 0 0 := by rw [h]
  have e1 : (trialCenters 100 1).getD 0 0 = 30 := by
    rw [trialCenters_eq, getD_range_map _ _ _ _ (by norm_num)]
    norm_num
  have e2 : (trialCentersSpec 100 1).getD 0 0 = 40 := by
    unfold trialCentersSpec
    rw [arangeQ_eq _ _ _ 80 (by norm_num), List.map_map,
      getD_range_map _ _ _ _ (by norm_num)]
    norm_num [Function.comp]
  rw [e1, e2] at h0
  norm_num at h0

/-- Claim C7 as amended.  The source divides the nominal center by
`2 ^ bin_level` first and then sweeps 20 units either side in steps of
one half (80 candidates starting at `center / 2^l - 20`), and the
integer slice indices are floor-divided by `2 ^ bin_level`. -/
theorem c7_center_sweep (c : ℚ) (l : ℕ) (i : ℤ) :
    trialCenters c l = (List.range 80).map (fun m : ℕ => c / 2 ^ l - 20 + (m : ℚ) / 2)
    ∧ idxScale i l * 2 ^ l ≤ i ∧ i < idxScale i l * 2 ^ l + 2 ^ l := by
  have hb : (0 : ℤ) < 2 ^ l := by positivity
  have h1 := Int.fdiv_add_fmod i (2 ^ l)
  have h2 := Int.fmod_nonneg' i hb
  have h3 := Int.fmod_lt_of_pos i hb
  refine ⟨trialCenters_eq c l, ?_, ?_⟩
  · unfold idxScale
    linarith [h1, h2, mul_comm (Int.fdiv i (2 ^ l)) ((2 : ℤ) ^ l)]
  · unfold idxScale
    linarith [h1, h3, mul_comm (Int.fdiv i (2 ^ l)) ((2 : ℤ) ^ l)]

/-- Claim C8.  Over the float-semantics model: for a finite input array
the negative-log stage alone already produces only finite values (the
clamp at `eps = 1e-6` keeps the logarithm argument positive), the
subsequent sanitization output contains no `nan` and no infinity, and
every input at or below `eps` is clamped to `eps` before the logarithm. -/
theorem c8_minuslog_sanitize (lg : ℚ → ℚ) (xs : List FloatSem.FVal)
    (h : ∀ x ∈ xs, x.isFin = true) :
    (∀ y ∈ FloatSem.minus_log lg xs, y.isFin = true)
    ∧ (∀ y ∈ FloatSem.fix_inf_nan (FloatSem.minus_log lg xs), y.isFin = true)
    ∧ (∀ q : ℚ, q ≤ eps →
        FloatSem.minus_log lg [FloatSem.FVal.fin q] = [FloatSem.FVal.fin (-(lg eps))]) := by
  refine ⟨?_, ?_, ?_⟩
  · intro y hy
    rw [FloatSem.minus_log, List.mem_map] at hy
    obtain ⟨x, hx, rfl⟩ := hy
    have hfin := h x hx
    cases x with
    | fin q =>
      simp only [FloatSem.fmax, FloatSem.flog]
      rw [if_pos (lt_of_lt_of_le (by norm_num [eps]) (le_max_right q eps))]
      rfl
    | nan => simp [FloatSem.FVal.isFin] at hfin
    | pinf => simp [FloatSem.FVal.isFin] at hfin
    | ninf => simp [FloatSem.FVal.isFin] at hfin
  · intro y hy
    rw [FloatSem.fix_inf_nan, List.mem_map] at hy
    obtain ⟨x, _, rfl⟩ := hy
    cases x <;> rfl
  · intro q hq
    have hmax : max q eps = eps := max_eq_right hq
    simp only [FloatSem.minus_log, List.map_cons, List.map_nil, FloatSem.fmax, hmax,
      FloatSem.flog]
    rw [if_pos (by norm_num [eps] : (0 : ℚ) < eps)]
    rfl

/-- Witness for C8 on a finite array containing a zero and a negative
value. -/
theorem c8_minuslog_sanitize_w :
    (∀ x ∈ [FloatSem.FVal.fin 0, FloatSem.FVal.fin (-5), FloatSem.FVal.fin 1],
        x.isFin = true)
    ∧ (∀ y ∈ FloatSem.fix_inf_nan (FloatSem.minus_log (fun q => q)
          [FloatSem.FVal.fin 0, FloatSem.FVal.fin (-5), FloatSem.FVal.fin 1]),
        y.isFin = true) :=
  ⟨by decide,
   (c8_minuslog_sanitize (fun q => q)
      [FloatSem.FVal.fin 0, FloatSem.FVal.fin (-5), FloatSem.FVal.fin 1]
      (by decide)).2.1⟩

/-- Claim C9.  For every binning level `l` and matrices whose two
dimensions are divisible by `2 ^ l`, binning yields shape
`[h / 2^l, w / 2^l]`, and binning is linear over exact arithmetic:
`binning (a + b) = binning a + binning b`. -/
theorem c9_binning_shape_linear (l hgt w : ℕ) (a b : List (List ℚ))
    (hdh : 2 ^ l ∣ hgt) (hdw : 2 ^ l ∣ w) (ha : isMat a hgt w) (hb : isMat b hgt w) :
    isMat (binning a l) (hgt / 2 ^ l) (w / 2 ^ l)
    ∧ binning (matAdd a b) l = matAdd (binning a l) (binning b l) :=
  ⟨binning_isMat l a hgt w ha, binning_matAdd l a b hgt w ha hb⟩

/-- Witness for C9 at level 1 on concrete 2 x 2 matrices. -/
theorem c9_binning_shape_linear_w :
    (2 ^ 1 ∣ 2 ∧ isMat matA 2 2 ∧ isMat matB 2 2)
    ∧ (isMat (binning matA 1) (2 / 2 ^ 1) (2 / 2 ^ 1)
       ∧ binning (matAdd matA matB) 1 = matAdd (binning matA 1) (binning matB 1)) :=
  ⟨⟨by decide, ⟨by decide, by decide⟩, ⟨by decide, by decide⟩⟩,
   c9_binning_shape_linear 1 2 2 matA matB (by decide) (by decide)
     ⟨by decide, by decide⟩ ⟨by decide, by decide⟩⟩

/-- Claim C10.  For every nominal center and binning level the sweep
has exactly 80 candidates, includes its lower endpoint
`center / 2^l - 20`, stays strictly below `center / 2^l + 20`, and
consecutive candidates differ by exactly one half. -/
theorem c10_eighty_trial_centers (c : ℚ) (l : ℕ) :
    (trialCenters c l).length = 80
    ∧ (trialCenters c l).getD 0 0 = c / 2 ^ l - 20
    ∧ (∀ x ∈ trialCenters c l, x < c / 2 ^ l + 20)
    ∧ (∀ m : ℕ, m + 1 < 80 →
        (trialCenters c l).getD (m + 1) 0 - (trialCenters c l).getD m 0 = 1 / 2) := by
  refine ⟨?_, ?_, ?_, ?_⟩
  · rw [trialCenters_eq]; simp
  · rw [trialCenters_eq, getD_range_map _ _ _ _ (by norm_num)]
    norm_num
  · intro x hx
    rw [trialCenters_eq] at hx
    simp only [List.mem_map, List.mem_range] at hx
    obtain ⟨m, hm, rfl⟩ := hx
    have hm79 : (m : ℚ) ≤ 79 := by exact_mod_cast Nat.lt_succ_iff.mp hm
    linarith
  · intro m hm
    rw [trialCenters_eq, getD_range_map _ _ _ _ hm, getD_range_map _ _ _ _ (by omega)]
    push_cast
    ring

/-- Witness for C10 at nominal center 0, binning level 0. -/
theorem c10_eighty_trial_centers_w :
    ((0 : ℕ) + 1 < 80 ∧ (-20 : ℚ) ∈ trialCenters 0 0)
    ∧ ((trialCenters 0 0).getD (0 + 1) 0 - (trialCenters 0 0).getD 0 0 = 1 / 2
       ∧ (-20 : ℚ) < 0 / 2 ^ 0 + 20) :=
  ⟨⟨by norm_num, by
      rw [trialCenters_eq]
      exact List.mem_map.mpr ⟨0, by simp, by norm_num⟩⟩,
   ⟨(c10_eighty_trial_centers 0 0).2.2.2 0 (by norm_num),
    (c10_eighty_trial_centers 0 0).2.2.1 (-20) (by
      rw [trialCenters_eq]
      exact List.mem_map.mpr ⟨0, by simp, by norm_num⟩)⟩⟩

end Orthorec
